import Mathlib

/-!
Verification of the hot-reload process supervisor in run_server.py.

The development embeds the core of the program shallowly:

* the glob watcher (`get_files`, `FilePollMonitor.__files_modified`) is
  modelled over an abstract `Disk` describing what the glob patterns
  enumerate and what `os.path.getmtime` returns at one poll;
* the process supervisor (`MonitoredProcess.__end_process`,
  `__exec_process`, `__reexec_process`, `__notify_state_change`) is
  modelled by the traces of observable actions it performs on the child;
* the top-level `hotreload` loop is modelled as a state machine over
  interrupt events.
-/

namespace RunServer


/-- A filesystem path, as the list of its directory segments followed by the
final component.  `os.path.dirname` returns the directory segments joined
with the separator, and the final component is the base name. -/
structure FPath where
  dirSegs : List (List Char)
  base : List Char
deriving DecidableEq

/-- Whether a character list contains two consecutive underscores, i.e. the
substring test `"__" in s` used by `get_files` on the dirname. -/
def containsDunder : List Char → Bool
  | [] => false
  | [_] => false
  | a :: b :: rest => (a == '_' && b == '_') || containsDunder (b :: rest)

/-- Directory segments joined with the path separator, as in the string
`os.path.dirname` returns. -/
def joinSegs : List (List Char) → List Char
  | [] => []
  | [s] => s
  | s :: t => s ++ '/' :: joinSegs t

/-- The dirname of a path: its directory segments joined with the separator. -/
def dirname (p : FPath) : List Char := joinSegs p.dirSegs

/-- The observable state of the watched filesystem at one poll: the paths the
glob patterns enumerate (`glob.glob` over all patterns), which paths are
regular files (`os.path.isfile`), and the result of `os.path.getmtime`,
where `none` models an `OSError` (file removed between enumeration and
stat). A path deleted from disk is absent from `globMatches` and has
`getmtime = none`. -/
structure Disk where
  globMatches : List FPath
  isfile : FPath → Bool
  getmtime : FPath → Option Nat

/-- The FileRecord (the `_modtimes` mapping): per-file recorded modification
time; `none` means the path has never been inserted. -/
abbrev Record := FPath → Option Nat

/-- `get_files` from run_server.py: the glob matches filtered to paths whose
dirname does not contain a double underscore and which are regular files,
collected into a set (modelled by `dedup`). -/
def get_files (d : Disk) : List FPath :=
  (d.globMatches.filter (fun p => !containsDunder (dirname p) && d.isfile p)).dedup

/-- One iteration of the loop body of `FilePollMonitor.__files_modified` for
a single enumerated path `p`.  On a successful stat the `defaultdict` read
`self._modtimes[file]` yields the recorded time or the default `0` (and
inserts the default when absent); a strictly larger mtime updates the record
and sets the changed flag.  On a stat failure the entry is deleted when
present and the changed flag is set. -/
def filesStep (d : Disk) (acc : Record × Bool) (p : FPath) : Record × Bool :=
  match d.getmtime p with
  | some mtime =>
    if (acc.1 p).getD 0 < mtime then
      (fun q => if q = p then some mtime else acc.1 q, true)
    else
      (fun q => if q = p then some ((acc.1 p).getD 0) else acc.1 q, acc.2)
  | none =>
    if (acc.1 p).isSome then
      (fun q => if q = p then none else acc.1 q, true)
    else acc

/-- `FilePollMonitor.__files_modified`: folds the per-file step over the
currently enumerated files, starting from changed = false; returns the
updated record and whether any change was seen. -/
def files_modified (d : Disk) (rec : Record) : Record × Bool :=
  (get_files d).foldl (filesStep d) (rec, false)

/-- Invariant used for the no-backwards property: the entry for `f` is at
least `m0` whenever present, and can only be absent when stat on `f` fails
at this poll (the only way the fold erases it). -/
def entryGE (d : Disk) (f : FPath) (m0 : Nat) (rec : Record) : Prop :=
  (∀ v, rec f = some v → m0 ≤ v) ∧ (rec f = none → d.getmtime f = none)

/-- A path is stable for this poll when the record already reflects the
disk: the recorded time is at least the current mtime, or the entry is
absent and stat fails. Every path processed by the fold ends up stable, and
the step is the identity on stable paths. -/
def stableAt (d : Disk) (rec : Record) (p : FPath) : Prop :=
  match d.getmtime p with
  | some m => ∃ v, rec p = some v ∧ m ≤ v
  | none => rec p = none

/-- The graceful-termination wait used by `__end_process`
(DEFAULT_TERMINATE_TIMEOUT in run_server.py), in seconds. -/
def DEFAULT_TERMINATE_TIMEOUT : Nat := 5

/-- The manual-interrupt delay window (CTRL_C_RESTART_DELAY in
run_server.py), in seconds. -/
def CTRL_C_RESTART_DELAY : Nat := 1

/-- Termination behaviour of one child process: the time after SIGTERM at
which it exits of its own accord, or `none` if it ignores SIGTERM and keeps
running. -/
structure Child where
  shutdownTime : Option Nat
deriving DecidableEq

/-- Whether `Popen.wait` with the given timeout observes the child exit
before the timeout expires. -/
def exitsWithin (c : Child) (t : Nat) : Bool :=
  match c.shutdownTime with
  | some s => decide (s ≤ t)
  | none => false

/-- Observable actions the supervisor performs on the child process. -/
inductive ProcAction
  | sigterm
  | waitObserveExit
  | sigkill
  | spawn
  | stopLoops
deriving DecidableEq

/-- `MonitoredProcess.__end_process` with graceful timeout `t`: sends
SIGTERM (`Popen.terminate`), then `Popen.wait(timeout=t)`.  When the wait
observes the exit, the method returns; otherwise the `TimeoutExpired`
handler sends SIGKILL (`Popen.kill`) and the method returns with no further
wait. -/
def terminate_trace (t : Nat) (c : Child) : List ProcAction :=
  if exitsWithin c t then [.sigterm, .waitObserveExit]
  else [.sigterm, .sigkill]

/-- The call made by the code: `__end_process` always waits
DEFAULT_TERMINATE_TIMEOUT seconds. -/
def end_trace (c : Child) : List ProcAction :=
  terminate_trace DEFAULT_TERMINATE_TIMEOUT c

/-- `MonitoredProcess.__reexec_process`: ends the child when `poll()` shows
it still running, then spawns the replacement with `__exec_process`. -/
def reexec_trace (running : Bool) (c : Child) : List ProcAction :=
  (if running then end_trace c else []) ++ [.spawn]

/-- `MonitoredProcess.stop`, as called on a manual interrupt: clears the
started flag and the watcher flag, then ends the current child. -/
def stop_trace (c : Child) : List ProcAction :=
  .stopLoops :: end_trace c

/-- States of the manual-interrupt protocol implemented by `hotreload`:
running normally, sleeping in the delay window after a first interrupt, or
returned to the caller. -/
inductive HRState
  | RUNNING
  | AWAITING
  | TERMINATED
deriving DecidableEq

/-- Events driving the protocol: a keyboard interrupt, or the delay window
elapsing with no second interrupt. -/
inductive HREvent
  | interrupt
  | windowElapsed
deriving DecidableEq

/-- One transition of the `hotreload` loop, parametrised by the termination
behaviour `c` of the current child.  An interrupt escaping `mp.start` runs
`mp.stop` (stop the loops and end the child) and enters the
`time.sleep(CTRL_C_RESTART_DELAY)` window; when the sleep finishes, the
`while True` loop calls `mp.start` again, which spawns a fresh child; a
second interrupt during the sleep makes `hotreload` return. -/
def hotreload_step (c : Child) : HRState → HREvent → HRState × List ProcAction
  | .RUNNING, .interrupt => (.AWAITING, stop_trace c)
  | .RUNNING, .windowElapsed => (.RUNNING, [])
  | .AWAITING, .interrupt => (.TERMINATED, [])
  | .AWAITING, .windowElapsed => (.RUNNING, [.spawn])
  | .TERMINATED, _ => (.TERMINATED, [])

/-- Runs the interrupt protocol over a list of events, collecting the
actions performed on the child. -/
def hotreload_run (c : Child) : HRState → List HREvent → HRState × List ProcAction
  | s, [] => (s, [])
  | s, e :: es =>
    ((hotreload_run c (hotreload_step c s e).1 es).1,
      (hotreload_step c s e).2 ++ (hotreload_run c (hotreload_step c s e).1 es).2)

/-- A user-visible exit notification emitted by `__notify_state_change`:
the exit code together with which branch was printed (`clean` is the
exit-code-zero branch). -/
structure Notification where
  code : Int
  clean : Bool
deriving DecidableEq

/-- `MonitoredProcess.__notify_state_change`: reads `poll()`; when the child
has exited and the per-instance `_has_exit` flag is not yet set, sets the
flag and emits one notification, distinguishing exit code 0 from the rest. -/
def notify_state_change (pollRes : Option Int) (hasExit : Bool) :
    Bool × Option Notification :=
  match pollRes with
  | some code =>
    if hasExit then (hasExit, none)
    else (true, some ⟨code, code == 0⟩)
  | none => (hasExit, none)

/-- Ticks of the exit-status poll loop in `__monitor`: runs
`__notify_state_change` on each successive `poll()` result, collecting every
emitted notification. -/
def notifyRun : List (Option Int) → Bool → Bool × List Notification
  | [], h => (h, [])
  | pr :: rest, h =>
    ((notifyRun rest (notify_state_change pr h).1).1,
      (notify_state_change pr h).2.toList ++ (notifyRun rest (notify_state_change pr h).1).2)

/-- The `_has_exit` flag after `MonitoredProcess.__exec_process` spawns a
new instance: the assignment `self._has_exit = False` resets it regardless
of its previous value. -/
def exec_resets (_hasExit : Bool) : Bool := false

/-- The successive `poll()` results seen by the exit-status loop for one
child instance that exits with code `k`: `a` ticks while it still runs,
then `b + 1` ticks after the exit. -/
def pollSeq (a b : Nat) (k : Int) : List (Option Int) :=
  List.replicate a none ++ List.replicate (b + 1) (some k)

/-! Orchestrator task structure, for the spawn-failure propagation claim. -/

/-- Task-level state of the orchestrator: whether the `while self._started`
loop of `MonitoredProcess.__monitor` is still iterating, whether the watcher
task created with `asyncio.create_task(self._monitor.start())` is still
running, whether the watcher task finished with a stored exception, and
whether an exception has propagated out of `hotreload` to the top level. -/
structure OrchState where
  monitorLoopRunning : Bool
  watcherAlive : Bool
  watcherFailed : Bool
  toplevelError : Bool
deriving DecidableEq

/-- Starting the orchestrator (`hotreload` calling `mp.start`, which runs
`__monitor` under `asyncio.run`): when the initial `subprocess.Popen` in
`__exec_process` raises, the only handler in `__monitor` catches
KeyboardInterrupt, so the exception ends the main coroutine before any loop
starts; `asyncio.run` re-raises it, and `hotreload` likewise catches only
KeyboardInterrupt, so the error reaches the top level with no loop left
running.  On success both the monitor loop and the watcher task run. -/
def initial_start (spawnFails : Bool) : OrchState :=
  if spawnFails then ⟨false, false, false, true⟩
  else ⟨true, true, false, false⟩

/-- A watcher tick that detects a change and calls `__reexec_process`: when
the respawn `Popen` raises, `FilePollMonitor.__run` catches only
KeyboardInterrupt, so the exception terminates that coroutine and is stored
in the task object created by `asyncio.create_task`; `__monitor` never
awaits that task, so its `while self._started` loop keeps iterating and
nothing reaches the top level. -/
def watcher_change_tick (s : OrchState) (spawnFails : Bool) : OrchState :=
  if s.watcherAlive && spawnFails then
    ⟨s.monitorLoopRunning, false, true, s.toplevelError⟩
  else s


/-! Concrete instances used to evaluate the theorems below. -/

/-- A previously-watched file that has since been deleted from disk. -/
def goneFile : FPath := ⟨[['s']], ['g', '.', 'p', 'y']⟩

/-- The disk after `goneFile` was deleted: the globs no longer enumerate it
and stat fails on it. -/
def afterDeleteDisk : Disk := ⟨[], fun _ => false, fun _ => none⟩

/-- A record in which `goneFile` is tracked with recorded mtime 5. -/
def trackedRec : Record := fun q => if q = goneFile then some 5 else none

/-- A file still enumerated by the glob whose stat fails: deleted between
enumeration and the `getmtime` call. -/
def raceFile : FPath := ⟨[['s']], ['r', '.', 'p', 'y']⟩

/-- The disk for the enumeration/stat race on `raceFile`. -/
def raceDisk : Disk := ⟨[raceFile], fun _ => true, fun _ => none⟩

/-- A record in which `raceFile` is tracked with recorded mtime 3. -/
def raceRec : Record := fun q => if q = raceFile then some 3 else none

/-- A watched file about to be touched forward. -/
def touchedFile : FPath := ⟨[['s']], ['a', '.', 'p', 'y']⟩

/-- The disk where `touchedFile` now carries mtime 9. -/
def touchDisk : Disk := ⟨[touchedFile], fun _ => true, fun _ => some 9⟩

/-- A record in which `touchedFile` is tracked with recorded mtime 1. -/
def touchRec : Record := fun q => if q = touchedFile then some 1 else none

/-- A path under a directory whose name contains a double underscore. -/
def pycachePath : FPath := ⟨[['s'], ['_', '_', 'p', 'y']], ['c', '.', 'p', 'y']⟩

/-- A disk whose glob pattern happens to enumerate `pycachePath`. -/
def pycacheDisk : Disk := ⟨[pycachePath], fun _ => true, fun _ => some 2⟩

/-- The empty record. -/
def emptyRec : Record := fun _ => none

/-- A regular file whose base name contains a double underscore while its
directory path does not. -/
def dunderBaseFile : FPath := ⟨[['s']], ['_', '_', 'm', '.', 'p', 'y']⟩

/-- The disk enumerating `dunderBaseFile` with mtime 4. -/
def dunderBaseDisk : Disk := ⟨[dunderBaseFile], fun _ => true, fun _ => some 4⟩

/-- A watched file whose on-disk mtime moved backwards to 2. -/
def backFile : FPath := ⟨[['s']], ['b', '.', 'p', 'y']⟩

/-- The disk where `backFile` now carries mtime 2. -/
def backDisk : Disk := ⟨[backFile], fun _ => true, fun _ => some 2⟩

/-- A record in which `backFile` is tracked with recorded mtime 7. -/
def backRec : Record := fun q => if q = backFile then some 7 else none

/-- A child that ignores SIGTERM entirely. -/
def stubbornChild : Child := ⟨none⟩

/-- A child that exits one second after SIGTERM. -/
def promptChild : Child := ⟨some 1⟩

/-- A child that needs seven seconds to shut down after SIGTERM. -/
def slowChild : Child := ⟨some 7⟩

/-! Lemmas. -/

theorem filesStep_apply_ne (d : Disk) (acc : Record × Bool) (p f : FPath)
    (h : ¬ f = p) : (filesStep d acc p).1 f = acc.1 f := by
  unfold filesStep
  cases hm : d.getmtime p with
  | some m =>
    by_cases hlt : (acc.1 p).getD 0 < m <;> simp [hlt, h]
  | none =>
    by_cases hs : (acc.1 p).isSome <;> simp [hs, h]

theorem filesStep_snd_true (d : Disk) (acc : Record × Bool) (p : FPath)
    (h : acc.2 = true) : (filesStep d acc p).2 = true := by
  unfold filesStep
  cases hm : d.getmtime p with
  | some m =>
    by_cases hlt : (acc.1 p).getD 0 < m <;> simp [hlt, h]
  | none =>
    by_cases hs : (acc.1 p).isSome <;> simp [hs, h]

theorem foldl_filesStep_apply_ne (d : Disk) (l : List FPath) :
    ∀ (acc : Record × Bool) (f : FPath), f ∉ l →
      (l.foldl (filesStep d) acc).1 f = acc.1 f := by
  induction l with
  | nil => intro acc f _; rfl
  | cons p t ih =>
    intro acc f hf
    have hne : ¬ f = p := fun hc => hf (hc ▸ List.mem_cons_self p t)
    have hft : f ∉ t := fun hc => hf (List.mem_cons_of_mem p hc)
    rw [List.foldl_cons, ih (filesStep d acc p) f hft,
      filesStep_apply_ne d acc p f hne]

theorem foldl_filesStep_snd_true (d : Disk) (l : List FPath) :
    ∀ acc : Record × Bool, acc.2 = true → (l.foldl (filesStep d) acc).2 = true := by
  induction l with
  | nil => intro acc h; exact h
  | cons p t ih =>
    intro acc h
    rw [List.foldl_cons]
    exact ih (filesStep d acc p) (filesStep_snd_true d acc p h)

theorem filesStep_trigger (d : Disk) (acc : Record × Bool) (f : FPath) (m : Nat)
    (hm : d.getmtime f = some m) (hlt : (acc.1 f).getD 0 < m) :
    (filesStep d acc f).2 = true := by
  unfold filesStep
  rw [hm]
  simp [hlt]

theorem foldl_filesStep_trigger (d : Disk) (l : List FPath) (f : FPath) (m : Nat)
    (hm : d.getmtime f = some m) :
    ∀ acc : Record × Bool, f ∈ l → (acc.1 f).getD 0 < m →
      (l.foldl (filesStep d) acc).2 = true := by
  induction l with
  | nil => intro acc hf _; cases hf
  | cons p t ih =>
    intro acc hf hlt
    rw [List.foldl_cons]
    by_cases hp : f = p
    · subst hp
      exact foldl_filesStep_snd_true d t (filesStep d acc f)
        (filesStep_trigger d acc f m hm hlt)
    · have hft : f ∈ t := by
        cases List.mem_cons.1 hf with
        | inl h => exact absurd h hp
        | inr h => exact h
      have : ((filesStep d acc p).1 f).getD 0 < m := by
        rw [filesStep_apply_ne d acc p f hp]; exact hlt
      exact ih (filesStep d acc p) hft this

theorem filesStep_erase (d : Disk) (acc : Record × Bool) (f : FPath)
    (hm : d.getmtime f = none) (hs : (acc.1 f).isSome = true) :
    (filesStep d acc f).1 f = none ∧ (filesStep d acc f).2 = true := by
  unfold filesStep
  rw [hm]
  simp [hs]

theorem filesStep_keeps_none (d : Disk) (acc : Record × Bool) (p f : FPath)
    (hm : d.getmtime f = none) (h : acc.1 f = none) :
    (filesStep d acc p).1 f = none := by
  by_cases hp : f = p
  · subst hp
    unfold filesStep
    rw [hm]
    simp [h]
  · rw [filesStep_apply_ne d acc p f hp]; exact h

theorem foldl_filesStep_keeps_none (d : Disk) (l : List FPath) (f : FPath)
    (hm : d.getmtime f = none) :
    ∀ acc : Record × Bool, acc.1 f = none →
      (l.foldl (filesStep d) acc).1 f = none := by
  induction l with
  | nil => intro acc h; exact h
  | cons p t ih =>
    intro acc h
    rw [List.foldl_cons]
    exact ih (filesStep d acc p) (filesStep_keeps_none d acc p f hm h)

theorem foldl_filesStep_erase (d : Disk) (l : List FPath) (f : FPath)
    (hm : d.getmtime f = none) :
    ∀ acc : Record × Bool, f ∈ l → (acc.1 f).isSome = true →
      (l.foldl (filesStep d) acc).1 f = none ∧
        (l.foldl (filesStep d) acc).2 = true := by
  induction l with
  | nil => intro acc hf _; cases hf
  | cons p t ih =>
    intro acc hf hs
    rw [List.foldl_cons]
    by_cases hp : f = p
    · subst hp
      obtain ⟨h1, h2⟩ := filesStep_erase d acc f hm hs
      exact ⟨foldl_filesStep_keeps_none d t f hm (filesStep d acc f) h1,
        foldl_filesStep_snd_true d t (filesStep d acc f) h2⟩
    · have hft : f ∈ t := by
        cases List.mem_cons.1 hf with
        | inl h => exact absurd h hp
        | inr h => exact h
      have : ((filesStep d acc p).1 f).isSome = true := by
        rw [filesStep_apply_ne d acc p f hp]; exact hs
      exact ih (filesStep d acc p) hft this

theorem filesStep_keeps_val (d : Disk) (acc : Record × Bool) (p f : FPath) (m : Nat)
    (hm : d.getmtime f = some m) (h : acc.1 f = some m) :
    (filesStep d acc p).1 f = some m := by
  by_cases hp : f = p
  · subst hp
    unfold filesStep
    rw [hm]
    simp [h]
  · rw [filesStep_apply_ne d acc p f hp]; exact h

theorem foldl_filesStep_keeps_val (d : Disk) (l : List FPath) (f : FPath) (m : Nat)
    (hm : d.getmtime f = some m) :
    ∀ acc : Record × Bool, acc.1 f = some m →
      (l.foldl (filesStep d) acc).1 f = some m := by
  induction l with
  | nil => intro acc h; exact h
  | cons p t ih =>
    intro acc h
    rw [List.foldl_cons]
    exact ih (filesStep d acc p) (filesStep_keeps_val d acc p f m hm h)

theorem filesStep_sets (d : Disk) (acc : Record × Bool) (f : FPath) (m : Nat)
    (hm : d.getmtime f = some m) (hlt : (acc.1 f).getD 0 < m) :
    (filesStep d acc f).1 f = some m := by
  unfold filesStep
  rw [hm]
  simp [hlt]

theorem foldl_filesStep_sets (d : Disk) (l : List FPath) (f : FPath) (m : Nat)
    (hm : d.getmtime f = some m) :
    ∀ acc : Record × Bool, f ∈ l → (acc.1 f).getD 0 < m →
      (l.foldl (filesStep d) acc).1 f = some m := by
  induction l with
  | nil => intro acc hf _; cases hf
  | cons p t ih =>
    intro acc hf hlt
    rw [List.foldl_cons]
    by_cases hp : f = p
    · subst hp
      exact foldl_filesStep_keeps_val d t f m hm (filesStep d acc f)
        (filesStep_sets d acc f m hm hlt)
    · have hft : f ∈ t := by
        cases List.mem_cons.1 hf with
        | inl h => exact absurd h hp
        | inr h => exact h
      have : ((filesStep d acc p).1 f).getD 0 < m := by
        rw [filesStep_apply_ne d acc p f hp]; exact hlt
      exact ih (filesStep d acc p) hft this

theorem filesStep_entryGE (d : Disk) (acc : Record × Bool) (p f : FPath) (m0 : Nat)
    (h : entryGE d f m0 acc.1) : entryGE d f m0 (filesStep d acc p).1 := by
  by_cases hp : f = p
  · subst hp
    unfold filesStep
    cases hm : d.getmtime f with
    | some m =>
      by_cases hlt : (acc.1 f).getD 0 < m
      · simp only [hlt, if_true]
        constructor
        · intro v hv
          simp only [if_pos rfl] at hv
          cases hv
          cases ho : acc.1 f with
          | none =>
            exact absurd hm (by rw [h.2 ho]; intro hc; cases hc)
          | some w =>
            have := h.1 w ho
            have : m0 ≤ w := this
            have hw : (acc.1 f).getD 0 = w := by rw [ho]; rfl
            omega
        · intro hv; simp at hv
      · simp only [hlt, if_false]
        constructor
        · intro v hv
          simp only [if_pos rfl] at hv
          cases hv
          cases ho : acc.1 f with
          | none =>
            exact absurd hm (by rw [h.2 ho]; intro hc; cases hc)
          | some w =>
            have := h.1 w ho
            simpa using this
        · intro hv; simp at hv
    | none =>
      by_cases hs : (acc.1 f).isSome
      · simp only [hs, if_true]
        exact ⟨fun v hv => by simp at hv, fun _ => hm⟩
      · simp only [hs, if_false]
        exact h
  · constructor
    · intro v hv
      rw [filesStep_apply_ne d acc p f hp] at hv
      exact h.1 v hv
    · intro hv
      rw [filesStep_apply_ne d acc p f hp] at hv
      exact h.2 hv

theorem foldl_filesStep_entryGE (d : Disk) (l : List FPath) (f : FPath) (m0 : Nat) :
    ∀ acc : Record × Bool, entryGE d f m0 acc.1 →
      entryGE d f m0 (l.foldl (filesStep d) acc).1 := by
  induction l with
  | nil => intro acc h; exact h
  | cons p t ih =>
    intro acc h
    rw [List.foldl_cons]
    exact ih (filesStep d acc p) (filesStep_entryGE d acc p f m0 h)

theorem filesStep_stable_id (d : Disk) (acc : Record × Bool) (p : FPath)
    (h : stableAt d acc.1 p) : filesStep d acc p = acc := by
  unfold stableAt at h
  unfold filesStep
  cases hm : d.getmtime p with
  | some m =>
    rw [hm] at h
    obtain ⟨v, hv, hle⟩ := h
    have hg : (acc.1 p).getD 0 = v := by rw [hv]; rfl
    have hlt : ¬ (acc.1 p).getD 0 < m := by omega
    simp only [hlt, if_false]
    refine Prod.ext ?_ rfl
    funext q
    by_cases hq : q = p
    · subst hq; simp [hg, hv]
    · simp [hq]
  | none =>
    rw [hm] at h
    have hs : (acc.1 p).isSome = false := by rw [h]; rfl
    simp [hs]

theorem filesStep_makes_stable (d : Disk) (acc : Record × Bool) (p : FPath) :
    stableAt d (filesStep d acc p).1 p := by
  unfold stableAt
  unfold filesStep
  cases hm : d.getmtime p with
  | some m =>
    by_cases hlt : (acc.1 p).getD 0 < m
    · simp [hlt]
    · simp only [hlt, if_false]
      refine ⟨(acc.1 p).getD 0, ?_, ?_⟩
      · simp
      · omega
  | none =>
    by_cases hs : (acc.1 p).isSome
    · simp [hs]
    · simp only [hs, if_false]
      cases ho : acc.1 p with
      | none => exact ho
      | some w => rw [ho] at hs; cases hs rfl

theorem filesStep_preserves_stable (d : Disk) (acc : Record × Bool) (p f : FPath)
    (h : stableAt d acc.1 f) : stableAt d (filesStep d acc p).1 f := by
  by_cases hp : f = p
  · subst hp; exact filesStep_makes_stable d acc f
  · unfold stableAt at h ⊢
    cases hm : d.getmtime f with
    | some m =>
      rw [hm] at h
      obtain ⟨v, hv, hle⟩ := h
      exact ⟨v, by rw [filesStep_apply_ne d acc p f hp]; exact hv, hle⟩
    | none =>
      rw [hm] at h
      rw [filesStep_apply_ne d acc p f hp]
      exact h

theorem foldl_filesStep_preserves_stable (d : Disk) (l : List FPath) (f : FPath) :
    ∀ acc : Record × Bool, stableAt d acc.1 f →
      stableAt d (l.foldl (filesStep d) acc).1 f := by
  induction l with
  | nil => intro acc h; exact h
  | cons p t ih =>
    intro acc h
    rw [List.foldl_cons]
    exact ih (filesStep d acc p) (filesStep_preserves_stable d acc p f h)

theorem foldl_filesStep_stable_mem (d : Disk) (l : List FPath) :
    ∀ (acc : Record × Bool) (f : FPath), f ∈ l →
      stableAt d (l.foldl (filesStep d) acc).1 f := by
  induction l with
  | nil => intro acc f hf; cases hf
  | cons p t ih =>
    intro acc f hf
    rw [List.foldl_cons]
    cases List.mem_cons.1 hf with
    | inl h =>
      subst h
      exact foldl_filesStep_preserves_stable d t f (filesStep d acc f)
        (filesStep_makes_stable d acc f)
    | inr h => exact ih (filesStep d acc p) f h

theorem foldl_filesStep_id_of_stable (d : Disk) (l : List FPath) :
    ∀ acc : Record × Bool, (∀ p ∈ l, stableAt d acc.1 p) →
      l.foldl (filesStep d) acc = acc := by
  induction l with
  | nil => intro acc _; rfl
  | cons p t ih =>
    intro acc h
    rw [List.foldl_cons, filesStep_stable_id d acc p (h p (List.mem_cons_self p t))]
    exact ih acc (fun q hq => h q (List.mem_cons_of_mem p hq))

/-- Running the refresh twice against the same disk state: the second run
reports no change and leaves the record as the first run produced it. -/
theorem files_modified_idem (d : Disk) (rec : Record) :
    files_modified d (files_modified d rec).1 = ((files_modified d rec).1, false) := by
  unfold files_modified
  exact foldl_filesStep_id_of_stable d (get_files d) ((files_modified d rec).1, false)
    (fun p hp => foldl_filesStep_stable_mem d (get_files d) (rec, false) p hp)

/-- Membership in the resolved file set of `get_files`. -/
theorem mem_get_files (d : Disk) (p : FPath) :
    p ∈ get_files d ↔
      p ∈ d.globMatches ∧ containsDunder (dirname p) = false ∧ d.isfile p = true := by
  unfold get_files
  rw [List.mem_dedup, List.mem_filter]
  simp [Bool.and_eq_true, Bool.not_eq_true']

/-! Lemmas about the double-underscore substring test, relating the dirname
string to the individual directory segments. -/

theorem containsDunder_cons_ne (c : Char) (t : List Char) (h : (c == '_') = false) :
    containsDunder (c :: t) = containsDunder t := by
  cases t with
  | nil => rfl
  | cons b r => simp [containsDunder, h]

theorem containsDunder_append_sep (t : List Char) :
    ∀ s : List Char, containsDunder (s ++ '/' :: t) =
      (containsDunder s || containsDunder t) := by
  intro s
  induction s with
  | nil =>
    rw [List.nil_append, containsDunder_cons_ne '/' t (by decide)]
    rfl
  | cons a s ih =>
    cases s with
    | nil =>
      rw [List.cons_append, List.nil_append]
      show ((a == '_' && '/' == '_') || containsDunder ('/' :: t)) = _
      rw [containsDunder_cons_ne '/' t (by decide)]
      simp [containsDunder]
    | cons b r =>
      rw [List.cons_append]
      show ((a == '_' && b == '_') || containsDunder ((b :: r) ++ '/' :: t)) = _
      rw [ih]
      simp [containsDunder, Bool.or_assoc]

theorem containsDunder_joinSegs :
    ∀ segs : List (List Char), containsDunder (joinSegs segs) = segs.any containsDunder := by
  intro segs
  induction segs with
  | nil => rfl
  | cons s t ih =>
    cases t with
    | nil => simp [joinSegs, containsDunder]
    | cons s2 t2 =>
      show containsDunder (s ++ '/' :: joinSegs (s2 :: t2)) = _
      rw [containsDunder_append_sep, ih]
      simp

theorem filesStep_keeps_ge (d : Disk) (acc : Record × Bool) (p f : FPath) (m v : Nat)
    (hm : d.getmtime f = some m) (h : acc.1 f = some v) (hge : m ≤ v) :
    (filesStep d acc p).1 f = some v := by
  by_cases hp : f = p
  · subst hp
    unfold filesStep
    rw [hm]
    have hg : (acc.1 f).getD 0 = v := by rw [h]; rfl
    have hvm : ¬ v < m := by omega
    simp [hg, hvm]
  · rw [filesStep_apply_ne d acc p f hp]; exact h

theorem foldl_filesStep_keeps_ge (d : Disk) (l : List FPath) (f : FPath) (m v : Nat)
    (hm : d.getmtime f = some m) (hge : m ≤ v) :
    ∀ acc : Record × Bool, acc.1 f = some v →
      (l.foldl (filesStep d) acc).1 f = some v := by
  induction l with
  | nil => intro acc h; exact h
  | cons p t ih =>
    intro acc h
    rw [List.foldl_cons]
    exact ih (filesStep d acc p) (filesStep_keeps_ge d acc p f m v hm h hge)

theorem notifyRun_replicate_none (a : Nat) :
    ∀ h : Bool, notifyRun (List.replicate a none) h = (h, []) := by
  induction a with
  | zero => intro h; rfl
  | succ n ih =>
    intro h
    show notifyRun (none :: List.replicate n none) h = (h, [])
    simp [notifyRun, notify_state_change, ih h]

theorem notifyRun_replicate_some_done (b : Nat) (k : Int) :
    notifyRun (List.replicate b (some k)) true = (true, []) := by
  induction b with
  | zero => rfl
  | succ n ih =>
    show notifyRun (some k :: List.replicate n (some k)) true = (true, [])
    simp [notifyRun, notify_state_change, ih]

theorem notifyRun_append (l1 l2 : List (Option Int)) :
    ∀ h : Bool, notifyRun (l1 ++ l2) h =
      ((notifyRun l2 (notifyRun l1 h).1).1,
        (notifyRun l1 h).2 ++ (notifyRun l2 (notifyRun l1 h).1).2) := by
  induction l1 with
  | nil => intro h; simp [notifyRun]
  | cons pr rest ih =>
    intro h
    simp [notifyRun, ih, List.append_assoc]

theorem notifyRun_exit_block (b : Nat) (k : Int) :
    notifyRun (List.replicate (b + 1) (some k)) false = (true, [⟨k, k == 0⟩]) := by
  show notifyRun (some k :: List.replicate b (some k)) false = _
  simp [notifyRun, notify_state_change, notifyRun_replicate_some_done b k]

theorem hotreload_run_terminated (c : Child) :
    ∀ es : List HREvent, hotreload_run c .TERMINATED es = (.TERMINATED, []) := by
  intro es
  induction es with
  | nil => rfl
  | cons e t ih =>
    cases e <;> simp [hotreload_run, hotreload_step, ih]

/-! Claim theorems. -/

/-- C1 counterexample: for a child that ignores SIGTERM, restarting the
still-running child sends SIGTERM, then — after the graceful timeout —
SIGKILL, and immediately spawns the replacement: `__end_process` performs no
wait after `kill()`, so the previous child's exit status is never observed
before the spawn, refuting the claim that termination is confirmed via
exit-status observation and that a wait follows the forceful kill. -/
theorem C1_cex_spawn_without_exit_observation :
    reexec_trace true stubbornChild = [.sigterm, .sigkill, .spawn] ∧
    ProcAction.waitObserveExit ∉ reexec_trace true stubbornChild := by
  decide

/-- C1 (amended): on a restart of a running child, when the child exits
within the graceful timeout its exit is observed by the bounded wait before
the replacement is spawned; when the timeout elapses, `__end_process` sends
the forceful kill and returns immediately, so the replacement is spawned
without the previous child's exit having been observed.  The manual-restart
path performs the same terminate actions before its spawn. -/
theorem C1_restart_termination (c : Child) :
    (exitsWithin c DEFAULT_TERMINATE_TIMEOUT = true →
      reexec_trace true c = [.sigterm, .waitObserveExit, .spawn]) ∧
    (exitsWithin c DEFAULT_TERMINATE_TIMEOUT = false →
      reexec_trace true c = [.sigterm, .sigkill, .spawn]) ∧
    (hotreload_run c .RUNNING [.interrupt, .windowElapsed]).2 =
      stop_trace c ++ [.spawn] := by
  refine ⟨?_, ?_, ?_⟩
  · intro h; simp [reexec_trace, end_trace, terminate_trace, h]
  · intro h; simp [reexec_trace, end_trace, terminate_trace, h]
  · simp [hotreload_run, hotreload_step]

/-- C1 witness: the amended statement evaluated on a promptly-exiting child
and on a child that ignores SIGTERM. -/
theorem C1_restart_termination_witness :
    reexec_trace true promptChild = [.sigterm, .waitObserveExit, .spawn] ∧
    reexec_trace true stubbornChild = [.sigterm, .sigkill, .spawn] :=
  ⟨(C1_restart_termination promptChild).1 (by decide),
   (C1_restart_termination stubbornChild).2.1 (by decide)⟩

/-- C2 counterexample: `goneFile` is tracked in the record but deleted from
disk, so the globs no longer enumerate it; `__files_modified` iterates only
over the currently enumerated files and never revisits record entries, so
the next refresh reports changed = false and keeps the stale entry, refuting
the claim that deletion yields changed = true and removal. -/
theorem C2_cex_deleted_file_not_noticed :
    goneFile ∉ afterDeleteDisk.globMatches ∧
    afterDeleteDisk.getmtime goneFile = none ∧
    trackedRec goneFile = some 5 ∧
    (files_modified afterDeleteDisk trackedRec).2 = false ∧
    (files_modified afterDeleteDisk trackedRec).1 goneFile = some 5 := by
  decide

/-- C2 (amended): deleting a tracked file leaves its FileRecord entry in
place and does not by itself make `refresh()` report a change, because the
deleted file is no longer enumerated by the globs; only a file still
enumerated whose stat then fails (the `OSError` race window) is removed
from FileRecord with changed = true. -/
theorem C2_deletion_behaviour :
    (∀ (d : Disk) (rec : Record) (f : FPath), f ∉ get_files d →
      (files_modified d rec).1 f = rec f) ∧
    (∀ (d : Disk) (rec : Record) (f : FPath), f ∈ get_files d →
      d.getmtime f = none → (rec f).isSome = true →
        (files_modified d rec).1 f = none ∧ (files_modified d rec).2 = true) := by
  constructor
  · intro d rec f hf
    exact foldl_filesStep_apply_ne d (get_files d) (rec, false) f hf
  · intro d rec f hf hm hs
    exact foldl_filesStep_erase d (get_files d) f hm (rec, false) hf hs

/-- C2 witness: the amended statement evaluated on the deleted file and on
the enumeration/stat race. -/
theorem C2_deletion_behaviour_witness :
    (files_modified afterDeleteDisk trackedRec).1 goneFile = trackedRec goneFile ∧
    ((files_modified raceDisk raceRec).1 raceFile = none ∧
      (files_modified raceDisk raceRec).2 = true) :=
  ⟨C2_deletion_behaviour.1 afterDeleteDisk trackedRec goneFile (by decide),
   C2_deletion_behaviour.2 raceDisk raceRec raceFile (by decide) (by decide) (by decide)⟩

/-- C3: the manual-interrupt protocol of `hotreload`: from RUNNING, one
interrupt followed by the full delay window with no second interrupt gives
exactly one terminate-then-respawn cycle and returns to RUNNING; a second
interrupt within the window reaches TERMINATED with the loops stopped and
the child already terminated, and from TERMINATED no event performs any
further action; the delay window is 1 second. -/
theorem C3_manual_interrupt_protocol (c : Child) :
    (hotreload_run c .RUNNING [.interrupt, .windowElapsed]).1 = .RUNNING ∧
    (hotreload_run c .RUNNING [.interrupt, .windowElapsed]).2.count .sigterm = 1 ∧
    (hotreload_run c .RUNNING [.interrupt, .windowElapsed]).2.count .spawn = 1 ∧
    hotreload_run c .RUNNING [.interrupt, .interrupt] = (.TERMINATED, stop_trace c) ∧
    ProcAction.stopLoops ∈ stop_trace c ∧
    ProcAction.sigterm ∈ stop_trace c ∧
    ProcAction.spawn ∉ stop_trace c ∧
    (∀ es : List HREvent, hotreload_run c .TERMINATED es = (.TERMINATED, [])) ∧
    CTRL_C_RESTART_DELAY = 1 := by
  refine ⟨?_, ?_, ?_, ?_, ?_, ?_, ?_, hotreload_run_terminated c, rfl⟩ <;>
    cases h : exitsWithin c DEFAULT_TERMINATE_TIMEOUT <;>
      simp [hotreload_run, hotreload_step, stop_trace, end_trace, terminate_trace, h]

/-- C4: for every child instance, the exit notification is emitted exactly
once no matter how many poll ticks observe the exited child, it carries the
exit code with the clean branch exactly for code 0, and a fresh instance
spawned by `__exec_process` has its flag reset so its exit is reported
again. -/
theorem C4_notify_exactly_once (a b a2 b2 : Nat) (k k2 : Int) (h : Bool) :
    (notifyRun (pollSeq a b k) false).2 = [⟨k, k == 0⟩] ∧
    (notifyRun (pollSeq a2 b2 k2) (exec_resets h)).2 = [⟨k2, k2 == 0⟩] := by
  constructor
  · rw [pollSeq, notifyRun_append, notifyRun_replicate_none a false]
    simp [notifyRun_exit_block b k]
  · show (notifyRun (pollSeq a2 b2 k2) false).2 = _
    rw [pollSeq, notifyRun_append, notifyRun_replicate_none a2 false]
    simp [notifyRun_exit_block b2 k2]

/-- C5 counterexample: after a successful start, a spawn failure during a
change-triggered respawn only kills the watcher task — the exception is
stored in the `asyncio` task object and never awaited — while the exit-poll
loop keeps running and nothing reaches the top level, refuting the claim
that every failed spawn attempt propagates and stops the loops. -/
theorem C5_cex_respawn_failure_swallowed :
    (watcher_change_tick (initial_start false) true).monitorLoopRunning = true ∧
    (watcher_change_tick (initial_start false) true).toplevelError = false ∧
    (watcher_change_tick (initial_start false) true).watcherFailed = true := by
  decide

/-- C5 (amended): a spawn failure in `mp.start` (the initial spawn, and any
respawn on the interrupt path) propagates to the top level and stops the
loops; a spawn failure during a change-triggered respawn instead terminates
only the watcher task, leaving the exit-poll loop running and the top level
unaware. -/
theorem C5_spawn_failure_propagation :
    (initial_start true).toplevelError = true ∧
    (initial_start true).monitorLoopRunning = false ∧
    (initial_start true).watcherAlive = false ∧
    (∀ s : OrchState, (watcher_change_tick s true).toplevelError = s.toplevelError ∧
      (watcher_change_tick s true).monitorLoopRunning = s.monitorLoopRunning ∧
      (s.watcherAlive = true → (watcher_change_tick s true).watcherAlive = false ∧
        (watcher_change_tick s true).watcherFailed = true)) := by
  refine ⟨rfl, rfl, rfl, ?_⟩
  intro s
  unfold watcher_change_tick
  by_cases hw : s.watcherAlive = true
  · simp [hw]
  · simp only [Bool.not_eq_true] at hw
    simp [hw]

/-- C5 witness: the amended statement evaluated on the state after a
successful start. -/
theorem C5_spawn_failure_propagation_witness :
    (watcher_change_tick (initial_start false) true).watcherAlive = false ∧
    (watcher_change_tick (initial_start false) true).watcherFailed = true :=
  (C5_spawn_failure_propagation.2.2.2 (initial_start false)).2.2 (by decide)

/-- C6: `terminate()` with a graceful timeout shorter than the child's
shutdown time issues the forceful kill before returning; a child that exits
within the graceful timeout never receives the kill; the default graceful
timeout is 5 seconds and is the one `__end_process` uses. -/
theorem C6_graceful_then_forceful (c : Child) (s t : Nat)
    (hc : c.shutdownTime = some s) :
    (t < s → ProcAction.sigkill ∈ terminate_trace t c) ∧
    (s ≤ t → ProcAction.sigkill ∉ terminate_trace t c) ∧
    DEFAULT_TERMINATE_TIMEOUT = 5 ∧
    end_trace c = terminate_trace 5 c := by
  have he : exitsWithin c t = decide (s ≤ t) := by
    unfold exitsWithin; rw [hc]
  refine ⟨?_, ?_, rfl, rfl⟩
  · intro h
    have hfalse : exitsWithin c t = false := by
      rw [he]; simp; omega
    simp [terminate_trace, hfalse]
  · intro h
    have htrue : exitsWithin c t = true := by
      rw [he]; simp [h]
    simp [terminate_trace, htrue]

/-- C6 witness: the statement evaluated on a slow child (shutdown 7 s, kill
issued) and a prompt child (shutdown 1 s, no kill). -/
theorem C6_graceful_then_forceful_witness :
    ProcAction.sigkill ∈ terminate_trace 5 slowChild ∧
    ProcAction.sigkill ∉ terminate_trace 5 promptChild :=
  ⟨(C6_graceful_then_forceful slowChild 7 5 rfl).1 (by decide),
   (C6_graceful_then_forceful promptChild 1 5 rfl).2.1 (by decide)⟩

/-- C7: touching a tracked file's modification time strictly forward makes
the next refresh report changed = true, and running the refresh a second
time against an unchanged filesystem reports changed = false. -/
theorem C7_touch_forward_and_idempotence :
    (∀ (d : Disk) (rec : Record) (f : FPath) (m0 m : Nat),
      f ∈ get_files d → rec f = some m0 → d.getmtime f = some m → m0 < m →
        (files_modified d rec).2 = true) ∧
    (∀ (d : Disk) (rec : Record),
      (files_modified d (files_modified d rec).1).2 = false) := by
  constructor
  · intro d rec f m0 m hf hr hm hlt
    refine foldl_filesStep_trigger d (get_files d) f m hm (rec, false) hf ?_
    show (rec f).getD 0 < m
    rw [hr]
    simpa using hlt
  · intro d rec
    rw [files_modified_idem d rec]

/-- C7 witness: the statement evaluated on a file touched from mtime 1 to
mtime 9. -/
theorem C7_touch_forward_and_idempotence_witness :
    (files_modified touchDisk touchRec).2 = true ∧
    (files_modified touchDisk (files_modified touchDisk touchRec).1).2 = false :=
  ⟨C7_touch_forward_and_idempotence.1 touchDisk touchRec touchedFile 1 9
      (by decide) (by decide) (by decide) (by decide),
    C7_touch_forward_and_idempotence.2 touchDisk touchRec⟩

/-- C8: a file under a directory path containing a double underscore is
never added to FileRecord: the dirname substring test holds exactly when
some directory segment contains the double underscore, such a path is
excluded from `get_files`, and the refresh leaves its record entry
untouched whatever happens on disk. -/
theorem C8_dunder_directories_excluded (d : Disk) (rec : Record) (p : FPath) :
    (containsDunder (dirname p) = true ↔ ∃ s ∈ p.dirSegs, containsDunder s = true) ∧
    ((∃ s ∈ p.dirSegs, containsDunder s = true) →
      p ∉ get_files d ∧ (files_modified d rec).1 p = rec p) := by
  have hiff : containsDunder (dirname p) = true ↔
      ∃ s ∈ p.dirSegs, containsDunder s = true := by
    rw [dirname, containsDunder_joinSegs, List.any_eq_true]
  refine ⟨hiff, fun hex => ?_⟩
  have hd : containsDunder (dirname p) = true := hiff.2 hex
  have hnot : p ∉ get_files d := by
    rw [mem_get_files]
    rintro ⟨-, h2, -⟩
    rw [hd] at h2
    cases h2
  exact ⟨hnot, foldl_filesStep_apply_ne d (get_files d) (rec, false) p hnot⟩

/-- C8 witness: the statement evaluated on a path inside a
double-underscore directory that the glob enumerates. -/
theorem C8_dunder_directories_excluded_witness :
    pycachePath ∉ get_files pycacheDisk ∧
    (files_modified pycacheDisk emptyRec).1 pycachePath = emptyRec pycachePath :=
  (C8_dunder_directories_excluded pycacheDisk emptyRec pycachePath).2 (by decide)

/-- C9: the recorded modification time of a tracked file never decreases
across a refresh; when the on-disk mtime moved strictly backwards, the
refresh keeps the recorded value and the per-file step reports no change
for that file. -/
theorem C9_record_never_decreases (d : Disk) (rec : Record) (f : FPath) (m0 : Nat)
    (hr : rec f = some m0) :
    (∀ v, (files_modified d rec).1 f = some v → m0 ≤ v) ∧
    (∀ m, d.getmtime f = some m → m < m0 →
      (files_modified d rec).1 f = some m0 ∧
        ∀ c : Bool, (filesStep d (rec, c) f).2 = c) := by
  constructor
  · intro v hv
    have hGE : entryGE d f m0 rec := by
      constructor
      · intro w hw
        rw [hr] at hw
        have := Option.some.inj hw
        omega
      · intro hn
        rw [hr] at hn
        cases hn
    exact (foldl_filesStep_entryGE d (get_files d) f m0 (rec, false) hGE).1 v hv
  · intro m hm hlt
    constructor
    · exact foldl_filesStep_keeps_ge d (get_files d) f m m0 hm (by omega) (rec, false) hr
    · intro c
      unfold filesStep
      rw [hm]
      have hg : ((rec, c).1 f).getD 0 = m0 := by
        show (rec f).getD 0 = m0
        rw [hr]; rfl
      have hnlt : ¬ ((rec, c).1 f).getD 0 < m := by omega
      simp [hnlt]

/-- C9 witness: the statement evaluated on a file whose on-disk mtime moved
back from 7 to 2. -/
theorem C9_record_never_decreases_witness :
    (files_modified backDisk backRec).1 backFile = some 7 ∧
    (filesStep backDisk (backRec, false) backFile).2 = false :=
  ⟨((C9_record_never_decreases backDisk backRec backFile 7 (by decide)).2 2
      (by decide) (by decide)).1,
    ((C9_record_never_decreases backDisk backRec backFile 7 (by decide)).2 2
      (by decide) (by decide)).2 false⟩

/-- C10: the double-underscore exclusion applies only to the directory
part of the path: a regular file matched by the glob whose base name
contains a double underscore while its directory path does not is resolved
by `get_files`, recorded at its current mtime, and its modification makes
the refresh report changed = true. -/
theorem C10_dunder_basename_included (d : Disk) (rec : Record) (p : FPath) (m : Nat)
    (_hbase : containsDunder p.base = true)
    (hdir : containsDunder (dirname p) = false)
    (hg : p ∈ d.globMatches) (hf : d.isfile p = true)
    (hm : d.getmtime p = some m) (hlt : (rec p).getD 0 < m) :
    p ∈ get_files d ∧ (files_modified d rec).1 p = some m ∧
      (files_modified d rec).2 = true := by
  have hmem : p ∈ get_files d := (mem_get_files d p).2 ⟨hg, hdir, hf⟩
  refine ⟨hmem, ?_, ?_⟩
  · exact foldl_filesStep_sets d (get_files d) p m hm (rec, false) hmem hlt
  · exact foldl_filesStep_trigger d (get_files d) p m hm (rec, false) hmem hlt

/-- C10 witness: the statement evaluated on a fresh double-underscore-named
file in a plain directory, with mtime 4. -/
theorem C10_dunder_basename_included_witness :
    dunderBaseFile ∈ get_files dunderBaseDisk ∧
    (files_modified dunderBaseDisk emptyRec).1 dunderBaseFile = some 4 ∧
    (files_modified dunderBaseDisk emptyRec).2 = true :=
  C10_dunder_basename_included dunderBaseDisk emptyRec dunderBaseFile 4
    (by decide) (by decide) (by decide) (by decide) (by decide) (by decide)

end RunServer
